import Mathlib

/-!
# Verification of the `rosetta` translation pipeline

Shallow embedding of the core of the `rosetta` repository:
* the translation cache (`src/cache.rs`),
* the length-bounded segmenter (`src/parser/pandoc.rs`),
* the remote-session retry state machine (`src/llm/openai.rs`),
* the per-section pipeline step (`src/lib.rs`).

External effects (SQLite storage, HTTP calls, the pandoc binary, sleeping
during backoff) are modelled by explicit state: the cache is a list of rows,
the remote endpoint is a finite trace of responses consumed in order, and
executed SQL statements are recorded in a list.
-/

namespace Rosetta

/-! ## Cache model (`src/cache.rs`)

A SQLite row of the `translated` table.  `Cache::get` issues a point query
filtered by source text and the normalized language pair and returns the
first matching row; `Cache::insert` first performs a `get` and only inserts
when no entry is present. -/

structure CacheRow where
  src_section : String
  dst_section : String
  src_lang_lc : String
  dst_lang_lc : String
  deriving DecidableEq, Repr

/-- The `Cache` struct from `src/cache.rs`: a connection to the `translated`
table (modelled as the list of its rows, in insertion order) plus the
normalized language pair computed in `Cache::new`. -/
structure Cache where
  rows : List CacheRow
  src_lang_lc : String
  dst_lang_lc : String
  deriving DecidableEq, Repr

/-- SQL statements that `Cache::new` may execute against the database. -/
inductive SqlStmt where
  | createTranslatedTable
  deriving DecidableEq, Repr

/-- `Cache::new` (src/cache.rs:17-39): `is_new = !db_path.exists()`; the
`CREATE TABLE translated` statement is executed only when `is_new`; the
language names are normalized by `trim().to_lowercase()`.  The filesystem is
modelled by `db_file_exists` (whether a file was present at the path) and
`existing_rows` (the rows that file held, if any).  The returned list records
every statement executed during construction. -/
def Cache.new (db_file_exists : Bool) (existing_rows : List CacheRow)
    (src_lang dst_lang : String) : Cache × List SqlStmt :=
  let conn_rows := if db_file_exists then existing_rows else []
  let stmts := if db_file_exists then [] else [SqlStmt.createTranslatedTable]
  (⟨conn_rows, src_lang.trim.toLower, dst_lang.trim.toLower⟩, stmts)

/-- `Cache::get` (src/cache.rs:41-60): `SELECT dst_section FROM translated
WHERE src_section = ? AND src_lang_lc = ? AND dst_lang_lc = ?` returning the
first matching row's destination text, or `none` on no rows. -/
def Cache.get (c : Cache) (src : String) : Option String :=
  (c.rows.find? fun r =>
      r.src_section == src && r.src_lang_lc == c.src_lang_lc
        && r.dst_lang_lc == c.dst_lang_lc).map
    (·.dst_section)

/-- `Cache::insert` (src/cache.rs:63-76): inserts a new row unless `get`
already finds an entry for the same source text and language pair. -/
def Cache.insert (c : Cache) (src dst : String) : Cache :=
  if (c.get src).isNone then
    { c with rows := c.rows ++ [⟨src, dst, c.src_lang_lc, c.dst_lang_lc⟩] }
  else
    c

/-- If `get` finds nothing, `insert` appends one row for the cache's language
pair, and `get` then finds exactly that row. -/
theorem Cache.get_insert_self (c : Cache) (a b : String) (h : c.get a = none) :
    (c.insert a b).get a = some b := by
  have hfind : c.rows.find? (fun r =>
      r.src_section == a && r.src_lang_lc == c.src_lang_lc
        && r.dst_lang_lc == c.dst_lang_lc) = none := by
    unfold Cache.get at h
    exact Option.map_eq_none'.mp h
  unfold Cache.insert
  rw [if_pos (by rw [h]; rfl)]
  unfold Cache.get
  simp only [List.find?_append, hfind, Option.none_or, List.find?_cons,
    beq_self_eq_true, Bool.and_self, List.find?_nil]
  rfl

/-- An `insert` for an already-present source text is a no-op on the state. -/
theorem Cache.insert_of_get_some (c : Cache) (a d v : String)
    (h : c.get a = some v) : c.insert a d = c := by
  unfold Cache.insert
  rw [if_neg (by rw [h]; simp)]

/-! ## Per-section pipeline step (`src/lib.rs:243-275`)

The body of the loop `for (current, section) in input_sections` in
`LlmTranslationService::translate`.  A `MarkdownSection` is its list of
`MarkdownSubsection` texts.  The remote session (`llm.translate`) is an
oracle function from a section to its translated section; the third
component of the result counts how many times it was invoked, so that
"zero remote calls" is expressible. -/

/-- One iteration of the section loop: read the cache for every subsection;
if all are hits, assemble the translated section from the cached values
(no remote call); otherwise call the remote session once for the whole
section and insert every zipped (source, destination) pair into the cache.
The result is (section written to the generator, cache after, remote calls). -/
def translate_section (llm : List String → List String) (cache : Cache)
    (section' : List String) : List String × Cache × Nat :=
  let cached_subsections := section'.map fun ss => cache.get ss
  if cached_subsections.all Option.isSome then
    (cached_subsections.filterMap id, cache, 0)
  else
    let translated := llm section'
    let cache' := (section'.zip translated).foldl
      (fun c (p : String × String) => c.insert p.1 p.2) cache
    (translated, cache', 1)

/-- Folding `insert` over a pair list only touches the keys that occur as a
source in the list; every other key reads exactly as before. -/
theorem Cache.get_foldl_insert_of_not_mem (ps : List (String × String))
    (c : Cache) (s : String) (h : s ∉ ps.map Prod.fst) :
    (ps.foldl (fun c (p : String × String) => c.insert p.1 p.2) c).get s
      = c.get s := by
  induction ps generalizing c with
  | nil => rfl
  | cons p ps ih =>
    simp only [List.map_cons, List.mem_cons, not_or] at h
    rw [List.foldl_cons, ih _ h.2]
    unfold Cache.insert
    split
    · unfold Cache.get
      rw [List.find?_append]
      have : (List.find? (fun r : CacheRow =>
          r.src_section == s && r.src_lang_lc == c.src_lang_lc
            && r.dst_lang_lc == c.dst_lang_lc)
          ([⟨p.1, p.2, c.src_lang_lc, c.dst_lang_lc⟩] : List CacheRow))
          = none := by
        simp only [List.find?_cons, List.find?_nil]
        have : (p.1 == s) = false := by
          simpa using fun hh => h.1 hh.symm
        simp [this]
      rw [this, Option.or_none]
    · rfl

/-- When every subsection of a section is a cache hit, `filterMap id` over the
hit list unwraps exactly the cached values. -/
theorem filterMap_id_cached (cache : Cache) (sec : List String)
    (h : ∀ ss ∈ sec, (cache.get ss).isSome) :
    (sec.map fun ss => cache.get ss).filterMap id
      = sec.map fun ss => (cache.get ss).getD "" := by
  induction sec with
  | nil => rfl
  | cons x xs ih =>
    obtain ⟨v, hv⟩ := Option.isSome_iff_exists.mp (h x (by simp))
    simp only [List.map_cons, List.filterMap_cons, id, hv]
    rw [ih fun ss hss => h ss (by simp [hss])]
    simp [hv]

/-! ## Remote-session state machine (`src/llm/openai.rs`)

`OpenAiGPT::run_with_backoff` and `run_openai_request` are modelled as
deterministic functions over a finite trace of remote responses, consumed in
order, one response per request the code issues.  Sleeping between retries is
dropped (it does not affect the observable outcome), and
`ExponentialBackoff::next_backoff` is modelled as never exhausted (its
exhaustion depends on wall-clock elapsed time, which the embedding does not
track). -/

inductive LastErrorCode where
  | rateLimitExceeded
  | invalidPrompt
  | serverError
  deriving DecidableEq, Repr

inductive RunStatus where
  | queued
  | inProgress
  | completed
  | cancelling
  | cancelled
  | failed (code : Option LastErrorCode)
  | incomplete
  | expired
  | requiresAction
  deriving DecidableEq, Repr

/-- One response of the remote service to a single request issued inside
`run_with_backoff` (`runs_api.create` or `runs_api.retrieve`).  `ok` carries
the returned run's status (ignored for `create`); `reqwestErr` and `jsonErr`
are the two `OpenAIError` variants the `wrap_request!` macro treats as
retryable; `otherErr` is any other `OpenAIError`, returned immediately. -/
inductive ApiResp where
  | ok (status : RunStatus)
  | reqwestErr
  | jsonErr
  | otherErr
  deriving DecidableEq, Repr

/-- Which request `run_with_backoff` issues next: the outer loop starts by
creating a run; the inner loop polls it with `retrieve`. -/
inductive RwbMode where
  | createRun
  | pollRun
  deriving DecidableEq, Repr

inductive FatalKind where
  | budget
  | otherApi
  | cancelledRun
  | invalidPromptRun
  | expiredRun
  | requiresActionUnreachable
  deriving DecidableEq, Repr

/-- Result of `run_with_backoff`, instrumented with the final value of the
`sequential_errors` counter so that properties of the counter are statable. -/
inductive RwbOutcome where
  | success (errs : Nat)
  | fatal (kind : FatalKind) (errs : Nat)
  | outOfTrace (errs : Nat)
  deriving DecidableEq, Repr

/-- `MAX_SEQUENTIAL_ERRORS` from src/llm/openai.rs:24. -/
def MAX_SEQUENTIAL_ERRORS : Nat := 5

/-- The `retry_or_bail!` macro of `run_with_backoff`
(src/llm/openai.rs:251-261): bail fatally when `sequential_errors >=
MAX_SEQUENTIAL_ERRORS`, otherwise increment the counter and continue with the
outer loop (`k`). -/
def retry_or_bail (errs : Nat) (k : Nat → RwbOutcome) : RwbOutcome :=
  if MAX_SEQUENTIAL_ERRORS ≤ errs then .fatal .budget errs else k (errs + 1)

/-- `OpenAiGPT::run_with_backoff` (src/llm/openai.rs:242-342).  The outer
loop creates a run; the inner loop retrieves it and dispatches on its status:
`Completed` returns; `Queued`/`InProgress` re-poll; `Cancelling`/`Cancelled`,
`Expired`, and `Failed(InvalidPrompt)` bail fatally; `RequiresAction` is
`unreachable!`; `Failed(RateLimitExceeded)` restarts the outer loop without
touching the counter; `Failed(ServerError)`, `Failed` with no reason, and
`Incomplete` go through `retry_or_bail!`, as do the transport-level
`Reqwest`/`JSONDeserialize` errors of both requests.  Note there is no
assignment `sequential_errors = 0` anywhere in the source: the counter is
never reset. -/
def run_with_backoff : RwbMode → Nat → List ApiResp → RwbOutcome
  | _, errs, [] => .outOfTrace errs
  | .createRun, errs, r :: rest =>
    match r with
    | .ok _ => run_with_backoff .pollRun errs rest
    | .reqwestErr => retry_or_bail errs fun e => run_with_backoff .createRun e rest
    | .jsonErr => retry_or_bail errs fun e => run_with_backoff .createRun e rest
    | .otherErr => .fatal .otherApi errs
  | .pollRun, errs, r :: rest =>
    match r with
    | .reqwestErr => retry_or_bail errs fun e => run_with_backoff .createRun e rest
    | .jsonErr => retry_or_bail errs fun e => run_with_backoff .createRun e rest
    | .otherErr => .fatal .otherApi errs
    | .ok status =>
      match status with
      | .completed => .success errs
      | .queued => run_with_backoff .pollRun errs rest
      | .inProgress => run_with_backoff .pollRun errs rest
      | .cancelling => .fatal .cancelledRun errs
      | .cancelled => .fatal .cancelledRun errs
      | .expired => .fatal .expiredRun errs
      | .requiresAction => .fatal .requiresActionUnreachable errs
      | .incomplete => retry_or_bail errs fun e => run_with_backoff .createRun e rest
      | .failed none => retry_or_bail errs fun e => run_with_backoff .createRun e rest
      | .failed (some .serverError) =>
        retry_or_bail errs fun e => run_with_backoff .createRun e rest
      | .failed (some .invalidPrompt) => .fatal .invalidPromptRun errs
      | .failed (some .rateLimitExceeded) => run_with_backoff .createRun errs rest

/-- Modelled from the spec: the variant of `run_with_backoff` the claim
describes, in which "a successful call anywhere resets the sequential-error
counter to zero" — identical to `run_with_backoff` except that every `Ok`
response from the service sets the counter back to `0`. -/
def run_with_backoff_reset : RwbMode → Nat → List ApiResp → RwbOutcome
  | _, errs, [] => .outOfTrace errs
  | .createRun, errs, r :: rest =>
    match r with
    | .ok _ => run_with_backoff_reset .pollRun 0 rest
    | .reqwestErr => retry_or_bail errs fun e => run_with_backoff_reset .createRun e rest
    | .jsonErr => retry_or_bail errs fun e => run_with_backoff_reset .createRun e rest
    | .otherErr => .fatal .otherApi errs
  | .pollRun, errs, r :: rest =>
    match r with
    | .reqwestErr => retry_or_bail errs fun e => run_with_backoff_reset .createRun e rest
    | .jsonErr => retry_or_bail errs fun e => run_with_backoff_reset .createRun e rest
    | .otherErr => .fatal .otherApi errs
    | .ok status =>
      match status with
      | .completed => .success 0
      | .queued => run_with_backoff_reset .pollRun 0 rest
      | .inProgress => run_with_backoff_reset .pollRun 0 rest
      | .cancelling => .fatal .cancelledRun 0
      | .cancelled => .fatal .cancelledRun 0
      | .expired => .fatal .expiredRun 0
      | .requiresAction => .fatal .requiresActionUnreachable 0
      | .incomplete => retry_or_bail 0 fun e => run_with_backoff_reset .createRun e rest
      | .failed none => retry_or_bail 0 fun e => run_with_backoff_reset .createRun e rest
      | .failed (some .serverError) =>
        retry_or_bail 0 fun e => run_with_backoff_reset .createRun e rest
      | .failed (some .invalidPrompt) => .fatal .invalidPromptRun 0
      | .failed (some .rateLimitExceeded) => run_with_backoff_reset .createRun 0 rest

def RwbOutcome.seqErrors : RwbOutcome → Nat
  | .success e => e
  | .fatal _ e => e
  | .outOfTrace e => e

/-- One response to the single request retried by `run_openai_request`. -/
inductive ReqResp where
  | ok
  | reqwestErr
  | jsonErr
  | otherErr
  deriving DecidableEq, Repr

inductive ReqOutcome where
  | success (errs : Nat)
  | fatalInteraction (errs : Nat)
  | outOfTrace (errs : Nat)
  deriving DecidableEq, Repr

def ReqOutcome.seqErrors : ReqOutcome → Nat
  | .success e => e
  | .fatalInteraction e => e
  | .outOfTrace e => e

/-- The `retry_or_bail!` macro of `run_openai_request`
(src/llm/openai.rs:357-378): return `InteractionError` when the counter
reached the maximum, otherwise increment it and loop. -/
def req_retry_or_bail (errs : Nat) (k : Nat → ReqOutcome) : ReqOutcome :=
  if MAX_SEQUENTIAL_ERRORS ≤ errs then .fatalInteraction errs else k (errs + 1)

/-- `run_openai_request` (src/llm/openai.rs:346-392): its own, independent
`sequential_errors` counter; an `Ok` result returns immediately;
`Reqwest`/`JSONDeserialize` errors retry until the counter reaches
`MAX_SEQUENTIAL_ERRORS`, then surface as `LLMError::InteractionError`; any
other error is returned as `InteractionError` at once.  As above, backoff
exhaustion (wall-clock based) is not modelled. -/
def run_openai_request : Nat → List ReqResp → ReqOutcome
  | errs, [] => .outOfTrace errs
  | errs, r :: rest =>
    match r with
    | .ok => .success errs
    | .reqwestErr => req_retry_or_bail errs fun e => run_openai_request e rest
    | .jsonErr => req_retry_or_bail errs fun e => run_openai_request e rest
    | .otherErr => .fatalInteraction errs

/-- `retry_or_bail` keeps the counter between its input value and the
maximum, provided its continuation does. -/
theorem retry_or_bail_seqErrors (errs : Nat) (k : Nat → RwbOutcome)
    (h : errs ≤ MAX_SEQUENTIAL_ERRORS)
    (hk : ∀ e, e ≤ MAX_SEQUENTIAL_ERRORS →
      e ≤ (k e).seqErrors ∧ (k e).seqErrors ≤ MAX_SEQUENTIAL_ERRORS) :
    errs ≤ (retry_or_bail errs k).seqErrors
      ∧ (retry_or_bail errs k).seqErrors ≤ MAX_SEQUENTIAL_ERRORS := by
  unfold retry_or_bail
  split
  · exact ⟨le_refl errs, h⟩
  · rename_i hlt
    have h1 : errs + 1 ≤ MAX_SEQUENTIAL_ERRORS := by
      unfold MAX_SEQUENTIAL_ERRORS at hlt ⊢
      omega
    have h2 := hk (errs + 1) h1
    exact ⟨by omega, h2.2⟩

/-- The `sequential_errors` counter of `run_with_backoff` never decreases —
in particular no successful call resets it — and never exceeds the maximum
when it starts at or below it. -/
theorem run_with_backoff_counter_invariant (trace : List ApiResp) :
    ∀ (mode : RwbMode) (errs : Nat), errs ≤ MAX_SEQUENTIAL_ERRORS →
      errs ≤ (run_with_backoff mode errs trace).seqErrors
        ∧ (run_with_backoff mode errs trace).seqErrors
          ≤ MAX_SEQUENTIAL_ERRORS := by
  induction trace with
  | nil =>
    intro mode errs h
    cases mode <;>
      simp only [run_with_backoff, RwbOutcome.seqErrors] <;>
      exact ⟨le_refl errs, h⟩
  | cons r rest ih =>
    intro mode errs h
    have hretry := retry_or_bail_seqErrors errs
      (fun e => run_with_backoff .createRun e rest) h
      (fun e he => ih .createRun e he)
    cases mode <;> cases r <;>
        simp only [run_with_backoff, RwbOutcome.seqErrors] <;>
      first
        | exact ⟨le_refl errs, h⟩
        | exact ih .pollRun errs h
        | exact hretry
        | (rename_i status
           cases status <;>
             first
               | exact ⟨le_refl errs, h⟩
               | exact ih .pollRun errs h
               | exact ih .createRun errs h
               | exact hretry
               | (rename_i code
                  rcases code with _ | code
                  · exact hretry
                  · cases code
                    · exact ih .createRun errs h
                    · exact ⟨le_refl errs, h⟩
                    · exact hretry))

/-- Same invariant for `req_retry_or_bail`. -/
theorem req_retry_or_bail_seqErrors (errs : Nat) (k : Nat → ReqOutcome)
    (h : errs ≤ MAX_SEQUENTIAL_ERRORS)
    (hk : ∀ e, e ≤ MAX_SEQUENTIAL_ERRORS →
      e ≤ (k e).seqErrors ∧ (k e).seqErrors ≤ MAX_SEQUENTIAL_ERRORS) :
    errs ≤ (req_retry_or_bail errs k).seqErrors
      ∧ (req_retry_or_bail errs k).seqErrors ≤ MAX_SEQUENTIAL_ERRORS := by
  unfold req_retry_or_bail
  split
  · exact ⟨le_refl errs, h⟩
  · rename_i hlt
    have h1 : errs + 1 ≤ MAX_SEQUENTIAL_ERRORS := by
      unfold MAX_SEQUENTIAL_ERRORS at hlt ⊢
      omega
    have h2 := hk (errs + 1) h1
    exact ⟨by omega, h2.2⟩

/-- The `sequential_errors` counter of `run_openai_request` never decreases
and never exceeds the maximum when it starts at or below it. -/
theorem run_openai_request_counter_invariant (rtrace : List ReqResp) :
    ∀ errs : Nat, errs ≤ MAX_SEQUENTIAL_ERRORS →
      errs ≤ (run_openai_request errs rtrace).seqErrors
        ∧ (run_openai_request errs rtrace).seqErrors
          ≤ MAX_SEQUENTIAL_ERRORS := by
  induction rtrace with
  | nil => intro errs h; exact ⟨le_refl errs, h⟩
  | cons r rest ih =>
    intro errs h
    have hretry := req_retry_or_bail_seqErrors errs
      (fun e => run_openai_request e rest) h (fun e he => ih e he)
    cases r <;>
        simp only [run_openai_request, ReqOutcome.seqErrors] <;>
      first
        | exact ⟨le_refl errs, h⟩
        | exact hretry

/-! ## Segmenter model (`src/parser/pandoc.rs`)

`PandocParser::parse` first runs the external pandoc binary to produce a
markdown file and reads it back; the model starts from that markdown text.
Text is a `List Char`; on ASCII text one `Char` is one byte, so positions and
lengths coincide with Rust's byte positions, and Lean's `Char.isWhitespace` /
`Char.isUpper` coincide with the regex classes `\p{White_Space}` /
`\p{Uppercase}`. -/

/-- The class `[.!?]` of the sentence-break regex. -/
def isSentenceEnd (c : Char) : Bool := c == '.' || c == '!' || c == '?'

def isWsChar (c : Char) : Bool := c.isWhitespace

def isUpperChar (c : Char) : Bool := c.isUpper

/-- A match of the regex `[.!?]\p{White_Space}+\p{Uppercase}` starting at
position `i` of `s`: terminal punctuation, then a non-empty whitespace run,
then an uppercase letter.  (Since no whitespace character is uppercase, the
greedy `+` is equivalent to taking the maximal run.) -/
def sentence_break_at (s : List Char) (i : Nat) : Bool :=
  match s.drop i with
  | [] => false
  | c :: rest =>
    isSentenceEnd c && !(rest.takeWhile isWsChar).isEmpty &&
      (match rest.dropWhile isWsChar with
       | [] => false
       | d :: _ => isUpperChar d)

def find_at_go (s : List Char) : Nat → Nat → Option Nat
  | _, 0 => none
  | i, fuel + 1 =>
    if sentence_break_at s i then some i else find_at_go s (i + 1) fuel

/-- `Regex::find_at(s, pos)`: the start of the leftmost match beginning at
or after `pos` (candidate starts `pos, pos+1, …, s.length` are covered by
the fuel). -/
def find_at (s : List Char) (pos : Nat) : Option Nat :=
  find_at_go s pos (s.length + 1 - pos)

def trimLeftChars (s : List Char) : List Char := s.dropWhile isWsChar

def trimRightChars (s : List Char) : List Char :=
  (s.reverse.dropWhile isWsChar).reverse

/-- `str::trim`: drop whitespace from both ends. -/
def trimChars (s : List Char) : List Char := trimRightChars (trimLeftChars s)

def segmentation_error_msg : String :=
  "Could not find a suitable break point to split a section!"

/-- The `while s.len() > self.max_section_len` loop of `PandocParser::parse`
(src/parser/pandoc.rs:51-68), plus the final `if !s.is_empty()` push: find
the first sentence break at or after `max_section_len / 2`, cut one past the
punctuation, trim both halves, continue on the remainder.  Each iteration
consumes at least one character, so fuel `s.length` (supplied by
`split_section`) never runs out; the fuel-exhausted branch returns the same
error for totality. -/
def split_section_go (L : Nat) : Nat → List Char → Except String (List (List Char))
  | 0, s =>
    if s.length ≤ L then .ok (if s.isEmpty then [] else [s])
    else .error segmentation_error_msg
  | fuel + 1, s =>
    if s.length ≤ L then .ok (if s.isEmpty then [] else [s])
    else
      match find_at s (L / 2) with
      | none => .error segmentation_error_msg
      | some i =>
        match split_section_go L fuel (trimChars (s.drop (i + 1))) with
        | .ok pieces => .ok (trimChars (s.take (i + 1)) :: pieces)
        | .error e => .error e

/-- Splitting one (already trimmed) paragraph into the subsections of its
section. -/
def split_section (L : Nat) (s : List Char) : Except String (List (List Char)) :=
  split_section_go L s.length s

/-- `str::split("\n\n")`: cut at each non-overlapping, leftmost occurrence
of two consecutive newlines. -/
def split_double_newline : List Char → List Char → List (List Char)
  | acc, '\n' :: '\n' :: rest => acc.reverse :: split_double_newline [] rest
  | acc, c :: rest => split_double_newline (c :: acc) rest
  | acc, [] => [acc.reverse]

structure PandocParser where
  max_section_len : Nat

/-- The `for s in markdown.split("\n\n")` loop: trim each paragraph, split
it, keep the section when non-empty, abort on the first error. -/
def parse_paragraphs (L : Nat) :
    List (List Char) → Except String (List (List (List Char)))
  | [] => .ok []
  | para :: rest =>
    match split_section L (trimChars para) with
    | .error e => .error e
    | .ok subs =>
      match parse_paragraphs L rest with
      | .error e => .error e
      | .ok sections => .ok (if subs.isEmpty then sections else subs :: sections)

/-- `PandocParser::parse` (src/parser/pandoc.rs:20-75) from the markdown
text onward (the pandoc conversion producing that text is an external
effect). -/
def PandocParser.parse (p : PandocParser) (markdown : List Char) :
    Except String (List (List (List Char))) :=
  parse_paragraphs p.max_section_len (split_double_newline [] markdown)

/-- A sentence-terminating punctuation mark is not whitespace. -/
theorem isWsChar_false_of_isSentenceEnd (c : Char)
    (h : isSentenceEnd c = true) : isWsChar c = false := by
  unfold isSentenceEnd at h
  simp only [Bool.or_eq_true, beq_iff_eq] at h
  rcases h with (rfl | rfl) | rfl <;> decide

/-- An uppercase letter is not whitespace. -/
theorem isWsChar_false_of_isUpperChar (c : Char)
    (h : isUpperChar c = true) : isWsChar c = false := by
  unfold isUpperChar at h
  unfold isWsChar
  cases hws : c.isWhitespace
  · rfl
  · exfalso
    have h65 : 65 ≤ c.val := by
      unfold Char.isUpper at h
      rw [Bool.and_eq_true] at h
      simpa using h.1
    have hd := hws
    unfold Char.isWhitespace at hd
    simp only [Bool.or_eq_true, decide_eq_true_eq] at hd
    rcases hd with ((rfl | rfl) | rfl) | rfl <;> revert h65 <;> decide

/-- The first character surviving `dropWhile isWsChar` is not whitespace. -/
theorem head?_dropWhile_isWs (s : List Char) (c : Char)
    (h : (s.dropWhile isWsChar).head? = some c) : isWsChar c = false := by
  induction s with
  | nil => simp [List.dropWhile] at h
  | cons a t ih =>
    rw [List.dropWhile_cons] at h
    by_cases ha : isWsChar a = true
    · rw [if_pos ha] at h
      exact ih h
    · rw [if_neg ha] at h
      simp only [List.head?_cons, Option.some.injEq] at h
      subst h
      simpa using ha

/-- `dropWhile` distributes over appending a final non-whitespace char. -/
theorem trimLeftChars_append_singleton (t : List Char) (c : Char)
    (hc : isWsChar c = false) :
    trimLeftChars (t ++ [c]) = trimLeftChars t ++ [c] := by
  unfold trimLeftChars
  induction t with
  | nil => simp [List.dropWhile_cons, hc]
  | cons a t ih =>
    rw [List.cons_append, List.dropWhile_cons, List.dropWhile_cons]
    by_cases ha : isWsChar a = true
    · rw [if_pos ha, if_pos ha]
      exact ih
    · rw [if_neg ha, if_neg ha, List.cons_append]

/-- Trimming the right of a list ending in a non-whitespace char is a no-op. -/
theorem trimRightChars_append_singleton (t : List Char) (c : Char)
    (hc : isWsChar c = false) : trimRightChars (t ++ [c]) = t ++ [c] := by
  unfold trimRightChars
  rw [List.reverse_append, List.reverse_singleton, List.singleton_append,
    List.dropWhile_cons, if_neg (by simp [hc])]
  simp

/-- Trimming a list ending in a non-whitespace char only trims the left. -/
theorem trimChars_append_singleton (t : List Char) (c : Char)
    (hc : isWsChar c = false) :
    trimChars (t ++ [c]) = trimLeftChars t ++ [c] := by
  unfold trimChars
  rw [trimLeftChars_append_singleton t c hc, trimRightChars_append_singleton _ c hc]

/-- What a successful `find_at_go` guarantees about its result. -/
theorem find_at_go_spec (s : List Char) :
    ∀ (fuel i j : Nat), find_at_go s i fuel = some j →
      sentence_break_at s j = true := by
  intro fuel
  induction fuel with
  | zero => intro i j h; simp [find_at_go] at h
  | succ fuel ih =>
    intro i j h
    rw [find_at_go] at h
    by_cases hb : sentence_break_at s i = true
    · rw [if_pos hb] at h
      simp only [Option.some.injEq] at h
      subst h
      exact hb
    · rw [if_neg hb] at h
      exact ih (i + 1) j h

/-- `find_at` only returns positions of sentence-break matches. -/
theorem find_at_spec (s : List Char) (pos j : Nat)
    (h : find_at s pos = some j) : sentence_break_at s j = true :=
  find_at_go_spec s _ pos j h

/-- Unpacking a sentence-break match. -/
theorem sentence_break_at_elim (s : List Char) (i : Nat)
    (h : sentence_break_at s i = true) :
    ∃ c rest, s.drop i = c :: rest ∧ isSentenceEnd c = true
      ∧ rest.takeWhile isWsChar ≠ []
      ∧ ∃ d tail, rest.dropWhile isWsChar = d :: tail ∧ isUpperChar d = true := by
  unfold sentence_break_at at h
  cases hd : s.drop i with
  | nil => rw [hd] at h; simp at h
  | cons c rest =>
    rw [hd] at h
    dsimp only at h
    cases htl : rest.dropWhile isWsChar with
    | nil => rw [htl] at h; simp at h
    | cons d tail =>
      rw [htl] at h
      simp only [Bool.and_eq_true, Bool.not_eq_true'] at h
      refine ⟨c, rest, rfl, h.1.1, ?_, d, tail, htl, h.2⟩
      intro hemp
      rw [hemp] at h
      simpa using h.1.2

/-- Cutting one past position `i` keeps everything up to and including the
matched character. -/
theorem take_succ_of_drop_cons (s : List Char) (i : Nat) (c : Char)
    (rest : List Char) (h : s.drop i = c :: rest) :
    s.take (i + 1) = s.take i ++ [c] := by
  have hc : s[i]? = some c := by
    have h0 : (s.drop i)[0]? = some c := by rw [h]; simp
    rw [List.getElem?_drop] at h0
    simpa using h0
  rw [List.take_succ, hc]
  simp

/-- A text with no whitespace at either edge (the state `str::trim`
establishes and the splitting loop preserves). -/
def NoEdgeWs (s : List Char) : Prop :=
  (∀ c, s.head? = some c → isWsChar c = false)
    ∧ ∀ c, s.getLast? = some c → isWsChar c = false

theorem noEdgeWs_nil : NoEdgeWs [] :=
  ⟨fun c hc => by simp at hc, fun c hc => by simp at hc⟩

/-- `dropWhile` keeps a suffix: a nonempty result has the last element of the
original list. -/
theorem getLast?_dropWhile_of_ne_nil (s : List Char) (p : Char → Bool)
    (h : s.dropWhile p ≠ []) : (s.dropWhile p).getLast? = s.getLast? := by
  obtain ⟨u, hu⟩ := List.dropWhile_suffix p (l := s)
  conv_rhs => rw [← hu]
  exact (List.getLast?_append_of_ne_nil u h).symm

/-- `dropWhile` keeps a suffix: a nonempty result's head heads the rest of
the original list, so a prefix-side statement needs the reverse trick. -/
theorem head?_reverse_dropWhile (s : List Char) (c : Char)
    (h : (trimRightChars s).head? = some c) : s.head? = some c := by
  unfold trimRightChars at h
  obtain ⟨u, hu⟩ := List.dropWhile_suffix isWsChar (l := s.reverse)
  have hne : (s.reverse.dropWhile isWsChar).reverse ≠ [] := by
    intro hnil
    rw [hnil] at h
    simp at h
  have hs : s = (s.reverse.dropWhile isWsChar).reverse ++ u.reverse := by
    have := congrArg List.reverse hu
    simpa [List.reverse_append] using this.symm
  rw [hs]
  cases hz : (s.reverse.dropWhile isWsChar).reverse with
  | nil => exact absurd hz hne
  | cons b w =>
    rw [hz] at h
    rw [List.cons_append]
    simpa using h

/-- The result of `trimChars` has no whitespace at either edge. -/
theorem noEdgeWs_trimChars (s : List Char) : NoEdgeWs (trimChars s) := by
  constructor
  · intro c hc
    unfold trimChars at hc
    have hy : (trimLeftChars s).head? = some c := head?_reverse_dropWhile _ c hc
    exact head?_dropWhile_isWs s c hy
  · intro c hc
    unfold trimChars trimRightChars at hc
    rw [List.getLast?_reverse] at hc
    exact head?_dropWhile_isWs _ c hc

/-- A list with a non-whitespace head survives `trimLeftChars`. -/
theorem trimLeftChars_eq_self (s : List Char)
    (h : ∀ c, s.head? = some c → isWsChar c = false) :
    trimLeftChars s = s := by
  unfold trimLeftChars
  cases s with
  | nil => rfl
  | cons a t => rw [List.dropWhile_cons, if_neg (by simp [h a rfl])]

/-- A list with a non-whitespace last element survives `trimRightChars`. -/
theorem trimRightChars_eq_self (s : List Char)
    (h : ∀ c, s.getLast? = some c → isWsChar c = false) :
    trimRightChars s = s := by
  unfold trimRightChars
  cases hrev : s.reverse with
  | nil => simp [List.reverse_eq_nil_iff.mp hrev]
  | cons b w =>
    have hb : s.getLast? = some b := by
      rw [← List.head?_reverse, hrev]
      rfl
    rw [List.dropWhile_cons, if_neg (by simp [h b hb]), ← hrev]
    simp

/-- Trimming a text with no whitespace at either edge is a no-op. -/
theorem trimChars_eq_self (s : List Char) (h : NoEdgeWs s) :
    trimChars s = s := by
  unfold trimChars
  rw [trimLeftChars_eq_self s h.1, trimRightChars_eq_self s h.2]

/-- `t` is `s` with some non-empty whitespace runs collapsed to single
spaces. -/
inductive WsCollapsedFrom : List Char → List Char → Prop
  | nil : WsCollapsedFrom [] []
  | keep (c : Char) {s t : List Char} :
      WsCollapsedFrom s t → WsCollapsedFrom (c :: s) (c :: t)
  | collapse {run s t : List Char} (hne : run ≠ [])
      (hws : ∀ c ∈ run, isWsChar c = true) (h : WsCollapsedFrom s t) :
      WsCollapsedFrom (run ++ s) (' ' :: t)

theorem WsCollapsedFrom.refl : ∀ s, WsCollapsedFrom s s
  | [] => .nil
  | c :: t => .keep c (WsCollapsedFrom.refl t)

theorem WsCollapsedFrom.append_left (p : List Char) {s t : List Char}
    (h : WsCollapsedFrom s t) : WsCollapsedFrom (p ++ s) (p ++ t) := by
  induction p with
  | nil => simpa using h
  | cons a p ih => exact .keep a ih

/-- The single-space join of the claim: subsections of one section,
separated by one space each. -/
def join_with_space : List (List Char) → List Char
  | [] => []
  | [x] => x
  | x :: xs => x ++ ' ' :: join_with_space xs

/-- A successful split of a non-empty text yields at least one piece. -/
theorem split_section_go_ne_nil (L fuel : Nat) (s : List Char)
    (out : List (List Char)) (hs : s ≠ [])
    (hok : split_section_go L fuel s = .ok out) : out ≠ [] := by
  have hbase : ∀ o : List (List Char),
      (if s.isEmpty then ([] : List (List Char)) else [s]) = o → o ≠ [] := by
    intro o ho
    rw [if_neg (by simpa using hs)] at ho
    rw [← ho]
    simp
  match fuel with
  | 0 =>
    rw [split_section_go] at hok
    by_cases hlen : s.length ≤ L
    · rw [if_pos hlen] at hok
      simp only [Except.ok.injEq] at hok
      exact hbase out hok
    · rw [if_neg hlen] at hok
      simp at hok
  | fuel + 1 =>
    rw [split_section_go] at hok
    by_cases hlen : s.length ≤ L
    · rw [if_pos hlen] at hok
      simp only [Except.ok.injEq] at hok
      exact hbase out hok
    · rw [if_neg hlen] at hok
      cases hfind : find_at s (L / 2) with
      | none => rw [hfind] at hok; simp at hok
      | some i =>
        rw [hfind] at hok
        dsimp only at hok
        cases hrec : split_section_go L fuel (trimChars (s.drop (i + 1))) with
        | ok pieces =>
          rw [hrec] at hok
          simp only [Except.ok.injEq] at hok
          rw [← hok]
          simp
        | error e => rw [hrec] at hok; simp at hok

/-- Membership in the base output of the splitting loop. -/
theorem mem_split_base (L : Nat) (s : List Char) (out : List (List Char))
    (hlen : s.length ≤ L)
    (hout : (if s.isEmpty then ([] : List (List Char)) else [s]) = out)
    (ss : List Char) (hss : ss ∈ out) : ss = s ∧ ss.length ≤ L := by
  by_cases hemp : s.isEmpty
  · rw [if_pos hemp] at hout
    rw [← hout] at hss
    simp at hss
  · rw [if_neg hemp] at hout
    rw [← hout] at hss
    simp only [List.mem_singleton] at hss
    subst hss
    exact ⟨rfl, hlen⟩

/-- Every piece a successful splitting loop returns either fits the length
bound, or was cut one past a sentence-break punctuation mark, hence ends
with one. -/
theorem split_section_go_length_bound (L : Nat) :
    ∀ (fuel : Nat) (s : List Char) (out : List (List Char)),
      split_section_go L fuel s = .ok out →
      ∀ ss ∈ out, ss.length ≤ L
        ∨ ∃ c, ss.getLast? = some c ∧ isSentenceEnd c = true := by
  intro fuel
  induction fuel with
  | zero =>
    intro s out hok ss hss
    rw [split_section_go] at hok
    by_cases hlen : s.length ≤ L
    · rw [if_pos hlen] at hok
      simp only [Except.ok.injEq] at hok
      exact Or.inl (mem_split_base L s out hlen hok ss hss).2
    · rw [if_neg hlen] at hok
      simp at hok
  | succ fuel ih =>
    intro s out hok ss hss
    rw [split_section_go] at hok
    by_cases hlen : s.length ≤ L
    · rw [if_pos hlen] at hok
      simp only [Except.ok.injEq] at hok
      exact Or.inl (mem_split_base L s out hlen hok ss hss).2
    · rw [if_neg hlen] at hok
      cases hfind : find_at s (L / 2) with
      | none => rw [hfind] at hok; simp at hok
      | some i =>
        rw [hfind] at hok
        dsimp only at hok
        cases hrec : split_section_go L fuel (trimChars (s.drop (i + 1))) with
        | error e => rw [hrec] at hok; simp at hok
        | ok pieces =>
          rw [hrec] at hok
          simp only [Except.ok.injEq] at hok
          rw [← hok] at hss
          rcases List.mem_cons.mp hss with hss1 | hss1
          · subst hss1
            obtain ⟨c, rest0, hdrop, hpunct, -, -⟩ :=
              sentence_break_at_elim s i (find_at_spec s _ i hfind)
            right
            refine ⟨c, ?_, hpunct⟩
            rw [take_succ_of_drop_cons s i c rest0 hdrop,
              trimChars_append_singleton _ c
                (isWsChar_false_of_isSentenceEnd c hpunct)]
            exact List.getLast?_concat _
          · exact ih _ pieces hrec ss hss1

/-- Core reconstruction invariant: on a text with no whitespace at either
edge, a successful splitting loop returns pieces whose single-space join is
the text with the whitespace run at each cut point collapsed to one
space. -/
theorem split_section_go_reconstruction (L : Nat) :
    ∀ (fuel : Nat) (s : List Char) (out : List (List Char)),
      NoEdgeWs s → split_section_go L fuel s = .ok out →
      WsCollapsedFrom s (join_with_space out) := by
  intro fuel
  induction fuel with
  | zero =>
    intro s out hs hok
    rw [split_section_go] at hok
    by_cases hlen : s.length ≤ L
    · rw [if_pos hlen] at hok
      simp only [Except.ok.injEq] at hok
      by_cases hemp : s.isEmpty
      · rw [if_pos hemp] at hok
        rw [← hok]
        have : s = [] := by simpa using hemp
        subst this
        exact .nil
      · rw [if_neg hemp] at hok
        rw [← hok]
        exact WsCollapsedFrom.refl s
    · rw [if_neg hlen] at hok
      simp at hok
  | succ fuel ih =>
    intro s out hs hok
    rw [split_section_go] at hok
    by_cases hlen : s.length ≤ L
    · rw [if_pos hlen] at hok
      simp only [Except.ok.injEq] at hok
      by_cases hemp : s.isEmpty
      · rw [if_pos hemp] at hok
        rw [← hok]
        have : s = [] := by simpa using hemp
        subst this
        exact .nil
      · rw [if_neg hemp] at hok
        rw [← hok]
        exact WsCollapsedFrom.refl s
    · rw [if_neg hlen] at hok
      cases hfind : find_at s (L / 2) with
      | none => rw [hfind] at hok; simp at hok
      | some i =>
        rw [hfind] at hok
        dsimp only at hok
        cases hrec : split_section_go L fuel (trimChars (s.drop (i + 1))) with
        | error e => rw [hrec] at hok; simp at hok
        | ok pieces =>
          rw [hrec] at hok
          simp only [Except.ok.injEq] at hok
          obtain ⟨c, rest0, hdrop, hpunct, hrun, d, tail, htail, hupper⟩ :=
            sentence_break_at_elim s i (find_at_spec s _ i hfind)
          have hsne : s ≠ [] := by
            intro hnil
            rw [hnil] at hlen
            simp at hlen
          have htake : s.take (i + 1) = s.take i ++ [c] :=
            take_succ_of_drop_cons s i c rest0 hdrop
          have hdrop1 : s.drop (i + 1) = rest0 := by
            rw [← List.drop_drop 1 i s, hdrop]
            rfl
          have hrest0 : rest0 = rest0.takeWhile isWsChar ++ (d :: tail) := by
            conv_lhs => rw [← List.takeWhile_append_dropWhile isWsChar rest0]
            rw [htail]
          have hdecomp : s = s.take (i + 1)
              ++ (rest0.takeWhile isWsChar ++ (d :: tail)) := by
            conv_lhs => rw [← List.take_append_drop (i + 1) s]
            rw [hdrop1, ← hrest0]
          have hpiece_trim : trimChars (s.take (i + 1)) = s.take (i + 1) := by
            apply trimChars_eq_self
            constructor
            · intro e he
              apply hs.1 e
              cases s with
              | nil => exact absurd rfl hsne
              | cons a t =>
                rw [List.take_succ_cons] at he
                simp only [List.head?_cons, Option.some.injEq] at he
                rw [← he]
                rfl
            · intro e he
              rw [htake, List.getLast?_concat] at he
              simp only [Option.some.injEq] at he
              rw [← he]
              exact isWsChar_false_of_isSentenceEnd c hpunct
          have hdtail_last : ∀ e, (d :: tail).getLast? = some e →
              isWsChar e = false := by
            intro e he
            apply hs.2 e
            rw [hdecomp]
            rw [List.getLast?_append_of_ne_nil _ (by simp)]
            rw [List.getLast?_append_of_ne_nil _ (by simp)]
            exact he
          have hrest_trim : trimChars (s.drop (i + 1)) = d :: tail := by
            rw [hdrop1]
            unfold trimChars
            rw [show trimLeftChars rest0 = d :: tail from htail]
            exact trimRightChars_eq_self _ hdtail_last
          have hno : NoEdgeWs (d :: tail) := by
            constructor
            · intro e he
              simp only [List.head?_cons, Option.some.injEq] at he
              rw [← he]
              exact isWsChar_false_of_isUpperChar d hupper
            · exact hdtail_last
          have hih : WsCollapsedFrom (d :: tail) (join_with_space pieces) := by
            have h0 := ih (trimChars (s.drop (i + 1))) pieces
              (by rw [hrest_trim]; exact hno) hrec
            rw [hrest_trim] at h0
            exact h0
          have hpieces_ne : pieces ≠ [] :=
            split_section_go_ne_nil L fuel _ pieces
              (by rw [hrest_trim]; simp) hrec
          have hjoin : join_with_space (trimChars (s.take (i + 1)) :: pieces)
              = trimChars (s.take (i + 1)) ++ ' ' :: join_with_space pieces := by
            cases pieces with
            | nil => exact absurd rfl hpieces_ne
            | cons p ps => rfl
          rw [← hok, hjoin, hpiece_trim]
          nth_rewrite 1 [hdecomp]
          exact WsCollapsedFrom.append_left (s.take (i + 1))
            (WsCollapsedFrom.collapse hrun
              (fun e he' => List.mem_takeWhile_imp he') hih)

/-- Every section of a successful parse is the split of one of the (trimmed)
paragraphs. -/
theorem parse_paragraphs_mem (L : Nat) :
    ∀ (paras : List (List Char)) (out : List (List (List Char))),
      parse_paragraphs L paras = .ok out →
      ∀ sec ∈ out, ∃ para ∈ paras,
        split_section L (trimChars para) = .ok sec := by
  intro paras
  induction paras with
  | nil =>
    intro out hok sec hsec
    rw [parse_paragraphs] at hok
    simp only [Except.ok.injEq] at hok
    rw [← hok] at hsec
    simp at hsec
  | cons para rest ih =>
    intro out hok sec hsec
    rw [parse_paragraphs] at hok
    cases hsplit : split_section L (trimChars para) with
    | error e => rw [hsplit] at hok; simp at hok
    | ok subs =>
      rw [hsplit] at hok
      dsimp only at hok
      cases hrest : parse_paragraphs L rest with
      | error e => rw [hrest] at hok; simp at hok
      | ok sections =>
        rw [hrest] at hok
        dsimp only at hok
        simp only [Except.ok.injEq] at hok
        by_cases hemp : subs.isEmpty
        · rw [if_pos hemp] at hok
          rw [← hok] at hsec
          obtain ⟨q, hq, hqs⟩ := ih sections hrest sec hsec
          exact ⟨q, List.mem_cons_of_mem _ hq, hqs⟩
        · rw [if_neg hemp] at hok
          rw [← hok] at hsec
          rcases List.mem_cons.mp hsec with h1 | h1
          · subst h1
            exact ⟨para, List.mem_cons_self _ _, hsplit⟩
          · obtain ⟨q, hq, hqs⟩ := ih sections hrest sec h1
            exact ⟨q, List.mem_cons_of_mem _ hq, hqs⟩

/-- A trace of twelve responses alternating a successful `create` with a
transport error on the following `retrieve`: six retryable errors, each
separated from the next by a successful call. -/
def interleaved_error_trace : List ApiResp :=
  [.ok .queued, .reqwestErr, .ok .queued, .reqwestErr, .ok .queued, .reqwestErr,
   .ok .queued, .reqwestErr, .ok .queued, .reqwestErr, .ok .queued, .reqwestErr]

/-- A trace mixing run-level retryable conditions (`Failed(ServerError)`,
`Failed` with no reason, `Incomplete`) with request-level transport errors
(`Reqwest`, `JSONDeserialize`): five retryable errors in total. -/
def mixed_error_trace : List ApiResp :=
  [.ok .queued, .ok (.failed (some .serverError)), .reqwestErr,
   .ok .queued, .ok (.failed none), .jsonErr, .ok .queued, .ok .incomplete]

/-! ## Response-message shape check (`src/llm/openai.rs:190-236`)

After `run_with_backoff` succeeds, `OpenAiGPT::translate` lists the messages
of the thread created after the user's message and filtered by the run's id
(`ListMessagesRequest { run_id: Some(run.id), after: Some(my_message.id),
order: asc }`), and checks their shape.  The listing itself is a remote
query; its result is the `msgs` argument below. -/

/-- One content block of a response message. -/
inductive MessageContent where
  | text (value : String)
  | imageFile
  | imageUrl
  | refusal
  deriving DecidableEq, Repr

structure MessageObject where
  content : List MessageContent
  deriving DecidableEq, Repr

/-- The four variants of `LLMError` from `src/lib.rs:111-117`. -/
inductive LLMErrorKind where
  | connection
  | api
  | interaction
  | other
  deriving DecidableEq, Repr

/-- The shape checks of `OpenAiGPT::translate` on the listed messages
(src/llm/openai.rs:211-234): `msgs.data.len() != 1` is an
`InteractionError`; then `msg.content.len() != 1` is an `InteractionError`;
then a non-`Text` content block is an `InteractionError`; otherwise the text
value is the translated subsection.  None of these paths loops or retries:
the error is returned directly to the caller. -/
def extract_translated_message (msgs : List MessageObject) :
    Except LLMErrorKind String :=
  if msgs.length != 1 then
    .error .interaction
  else
    match msgs with
    | [] => .error .interaction
    | msg :: _ =>
      if msg.content.length != 1 then
        .error .interaction
      else
        match msg.content with
        | [MessageContent.text value] => .ok value
        | _ => .error .interaction

/-! ## Resumed translation (spec section 4.4, step 6a)

The `continue_translation` resumption branch of the pipeline is declared in
`src/generator.rs` (`GeneratorBuilder::build` takes `continue_translation`
and returns the prior output's sections as `AlreadyTranslated`, and
`PandocGeneratorBuilder::build` implements it by re-parsing the previous
partial output), but the orchestrator in `src/lib.rs` predates that API and
contains no consumer of the prior sections. -/

/-- Modelled from the spec: the resumption loop of the pipeline, missing
from `src/lib.rs` (only its collaborator `PandocGeneratorBuilder::build` and
the `GeneratorBuilder` trait declaring `continue_translation` are in the
source).  Spec section 4.4 step 6a: a prior translated section at position
`i` is reused verbatim iff its subsection count equals the freshly parsed
section's; a count mismatch at `i` drops the mismatched prior section and
all subsequent prior sections, so `i` and everything after fall through to
normal translation (`translate_section`).  Each output element carries
`true` iff the prior section was reused for that position. -/
def resume_translate (llm : List String → List String) :
    Cache → List (List String) → List (List String) →
      List (Bool × List String) × Cache
  | cache, _, [] => ([], cache)
  | cache, [], f :: fs =>
    let tc := translate_section llm cache f
    let rest := resume_translate llm tc.2.1 [] fs
    ((false, tc.1) :: rest.1, rest.2)
  | cache, p :: ps, f :: fs =>
    if p.length = f.length then
      let rest := resume_translate llm cache ps fs
      ((true, p) :: rest.1, rest.2)
    else
      let tc := translate_section llm cache f
      let rest := resume_translate llm tc.2.1 [] fs
      ((false, tc.1) :: rest.1, rest.2)

/-- One output element per freshly parsed section. -/
theorem resume_translate_length (llm : List String → List String) :
    ∀ (fresh prior : List (List String)) (cache : Cache),
      (resume_translate llm cache prior fresh).1.length = fresh.length := by
  intro fresh
  induction fresh with
  | nil => intro prior cache; cases prior <;> rfl
  | cons f fs ih =>
    intro prior cache
    cases prior with
    | nil => simpa [resume_translate] using ih [] _
    | cons p ps =>
      by_cases hpf : p.length = f.length
      · simp only [resume_translate, if_pos hpf, List.length_cons]
        rw [ih ps cache]
      · simp only [resume_translate, if_neg hpf, List.length_cons]
        rw [ih [] _]

/-- With no prior output left, every section is translated afresh. -/
theorem resume_translate_nil_prior_false (llm : List String → List String) :
    ∀ (fresh : List (List String)) (cache : Cache) (j : Nat),
      j < fresh.length →
      ((resume_translate llm cache [] fresh).1.get? j).map Prod.fst
        = some false := by
  intro fresh
  induction fresh with
  | nil => intro cache j hj; simp at hj
  | cons f fs ih =>
    intro cache j hj
    cases j with
    | zero => rfl
    | succ j =>
      simp only [resume_translate, List.get?_cons_succ]
      exact ih _ j (by simpa using hj)

/-- A reused (`true`) position always carries the prior section verbatim,
and its subsection count equals the freshly parsed section's. -/
theorem resume_translate_true_spec (llm : List String → List String) :
    ∀ (fresh prior : List (List String)) (cache : Cache) (i : Nat),
      ((resume_translate llm cache prior fresh).1.get? i).map Prod.fst
          = some true →
      ((resume_translate llm cache prior fresh).1.get? i).map Prod.snd
          = prior.get? i
        ∧ (prior.get? i).map List.length = (fresh.get? i).map List.length := by
  intro fresh
  induction fresh with
  | nil =>
    intro prior cache i htrue
    cases prior <;> simp [resume_translate] at htrue
  | cons f fs ih =>
    intro prior cache i htrue
    cases prior with
    | nil =>
      exfalso
      have hlt : i < (f :: fs).length := by
        by_contra hge
        have hnone : (resume_translate llm cache [] (f :: fs)).1.get? i
            = none := by
          apply List.get?_eq_none.mpr
          rw [resume_translate_length llm (f :: fs) [] cache]
          omega
        rw [hnone] at htrue
        simp at htrue
      rw [resume_translate_nil_prior_false llm (f :: fs) cache i hlt] at htrue
      simp at htrue
    | cons p ps =>
      by_cases hpf : p.length = f.length
      · cases i with
        | zero =>
          constructor
          · simp [resume_translate, if_pos hpf]
          · simp [hpf]
        | succ i =>
          simp only [resume_translate, if_pos hpf, List.get?_cons_succ]
            at htrue ⊢
          exact ih ps cache i htrue
      · cases i with
        | zero =>
          simp [resume_translate, if_neg hpf] at htrue
        | succ i =>
          simp only [resume_translate, if_neg hpf, List.get?_cons_succ]
            at htrue
          exfalso
          have hlt : i < fs.length := by
            by_contra hge
            have hnone : (resume_translate llm
                (translate_section llm cache f).2.1 [] fs).1.get? i
                = none := by
              apply List.get?_eq_none.mpr
              rw [resume_translate_length llm fs []]
              omega
            rw [hnone] at htrue
            simp at htrue
          rw [resume_translate_nil_prior_false llm fs
            (translate_section llm cache f).2.1 i hlt] at htrue
          simp at htrue

/-- Once a position is translated afresh (`false`), every later position is
too. -/
theorem resume_translate_false_propagates (llm : List String → List String) :
    ∀ (fresh prior : List (List String)) (cache : Cache) (i j : Nat),
      i ≤ j → j < fresh.length →
      ((resume_translate llm cache prior fresh).1.get? i).map Prod.fst
          = some false →
      ((resume_translate llm cache prior fresh).1.get? j).map Prod.fst
          = some false := by
  intro fresh
  induction fresh with
  | nil =>
    intro prior cache i j hij hj hfalse
    simp at hj
  | cons f fs ih =>
    intro prior cache i j hij hj hfalse
    cases prior with
    | nil => exact resume_translate_nil_prior_false llm (f :: fs) cache j hj
    | cons p ps =>
      by_cases hpf : p.length = f.length
      · cases i with
        | zero =>
          simp [resume_translate, if_pos hpf] at hfalse
        | succ i =>
          cases j with
          | zero => omega
          | succ j =>
            simp only [resume_translate, if_pos hpf, List.get?_cons_succ]
              at hfalse ⊢
            exact ih ps cache i j (by omega) (by simpa using hj) hfalse
      · cases j with
        | zero =>
          simp [resume_translate, if_neg hpf]
        | succ j =>
          simp only [resume_translate, if_neg hpf, List.get?_cons_succ]
          exact resume_translate_nil_prior_false llm fs
            (translate_section llm cache f).2.1 j (by simpa using hj)

end Rosetta

open Rosetta

/-- C4: for a cache with no entry yet for source text `a` under its language
pair, `insert a b` followed by `insert a d` leaves `get a = some b` — the
second insert is a silent no-op (first write wins), even when the destination
text `d` differs from `b`. -/
theorem cache_first_write_wins (c : Cache) (a b d : String)
    (h : c.get a = none) :
    ((c.insert a b).insert a d).get a = some b
      ∧ (c.insert a b).insert a d = c.insert a b := by
  have h1 : (c.insert a b).get a = some b := Cache.get_insert_self c a b h
  have h2 : (c.insert a b).insert a d = c.insert a b :=
    Cache.insert_of_get_some (c.insert a b) a d b h1
  exact ⟨by rw [h2, h1], h2⟩

/-- C4 witness: on a concrete empty cache for the pair `(en, fr)`, inserting
`("Hi.", "Salut.")` and then `("Hi.", "Bonjour.")` still yields `"Salut."`. -/
theorem cache_first_write_wins_witness :
    ((((Cache.new false [] "en" "fr").1.insert "Hi." "Salut.").insert
        "Hi." "Bonjour.").get "Hi." = some "Salut.")
      ∧ ((((Cache.new false [] "en" "fr").1.insert "Hi." "Salut.").insert
          "Hi." "Bonjour.")
        = (Cache.new false [] "en" "fr").1.insert "Hi." "Salut.") :=
  cache_first_write_wins (Cache.new false [] "en" "fr").1 "Hi." "Salut."
    "Bonjour." (by decide)

/-- C10: `Cache::new` executes the `CREATE TABLE translated` statement if and
only if no file existed at the database path; when a file already exists,
construction executes no statement at all (in particular nothing that would
verify the file's schema) and still succeeds, returning a cache backed by the
existing file's rows. -/
theorem cache_new_create_table_iff_new (e : Bool) (rows : List CacheRow)
    (sl dl : String) :
    (SqlStmt.createTranslatedTable ∈ (Cache.new e rows sl dl).2 ↔ e = false)
      ∧ (Cache.new true rows sl dl).2 = []
      ∧ (Cache.new true rows sl dl).1.rows = rows := by
  refine ⟨?_, rfl, rfl⟩
  cases e <;> simp [Cache.new]

/-- C5: a section all of whose subsections have cache entries is assembled
entirely from the cached values: the remote session is invoked zero times for
that section, the cache is left untouched, and the written section is the
list of cached translations.  The cache is consulted (the `map` over
`cache.get`) before the remote branch can run. -/
theorem fully_cached_section_uses_no_remote_call
    (llm : List String → List String) (cache : Cache) (sec : List String)
    (h : ∀ ss ∈ sec, (cache.get ss).isSome) :
    translate_section llm cache sec
      = (sec.map (fun ss => (cache.get ss).getD ""), cache, 0) := by
  have hc : (sec.map fun ss => cache.get ss).all Option.isSome = true := by
    rw [List.all_eq_true]
    intro o ho
    obtain ⟨ss, hss, rfl⟩ := List.mem_map.mp ho
    exact h ss hss
  unfold translate_section
  rw [if_pos hc, filterMap_id_cached cache sec h]

/-- C5 witness: scenario 3 of the spec — cache pre-populated with
`(en→fr, "Hi.") -> "Salut."`; the section `["Hi."]` is translated with zero
remote calls and output `"Salut."`, whatever the remote oracle would say. -/
theorem fully_cached_section_uses_no_remote_call_witness :
    translate_section (fun _ => ["REMOTE"])
        (⟨[⟨"Hi.", "Salut.", "en", "fr"⟩], "en", "fr"⟩ : Cache) ["Hi."]
      = (["Salut."],
          (⟨[⟨"Hi.", "Salut.", "en", "fr"⟩], "en", "fr"⟩ : Cache), 0) := by
  rw [fully_cached_section_uses_no_remote_call (fun _ => ["REMOTE"])
    (⟨[⟨"Hi.", "Salut.", "en", "fr"⟩], "en", "fr"⟩ : Cache) ["Hi."]
    (by decide)]
  rfl

/-- C9: when a section is not fully cached, the remote result is used as-is:
no length check is performed against the source section (the model has no
error outcome at all), the written section is exactly the translated section
the remote returned, the cache receives exactly the zipped (source,
destination) pairs — `min source-count translated-count` of them, the zip
truncating the longer side — and any source text not among the zipped pairs
reads from the cache exactly as before. -/
theorem mismatched_translation_zip_truncates
    (llm : List String → List String) (cache : Cache) (sec : List String)
    (h : ¬(sec.map fun ss => cache.get ss).all Option.isSome) :
    translate_section llm cache sec
        = (llm sec,
            (sec.zip (llm sec)).foldl
              (fun c (p : String × String) => c.insert p.1 p.2) cache, 1)
      ∧ (sec.zip (llm sec)).length = min sec.length (llm sec).length
      ∧ ∀ s, s ∉ (sec.zip (llm sec)).map Prod.fst →
          (translate_section llm cache sec).2.1.get s = cache.get s := by
  have h1 : translate_section llm cache sec
      = (llm sec,
          (sec.zip (llm sec)).foldl
            (fun c (p : String × String) => c.insert p.1 p.2) cache, 1) := by
    unfold translate_section
    rw [if_neg h]
  refine ⟨h1, List.length_zip sec (llm sec), fun s hs => ?_⟩
  rw [h1]
  exact Cache.get_foldl_insert_of_not_mem (sec.zip (llm sec)) cache s hs

/-- C9 witness: a remote oracle that answers a two-subsection section with a
single subsection `["X"]`; the output is `["X"]` verbatim, exactly
`min 2 1 = 1` pair is zipped, and the unzipped source `"b"` stays uncached. -/
theorem mismatched_translation_zip_truncates_witness :
    (translate_section (fun _ => ["X"]) (⟨[], "en", "fr"⟩ : Cache)
        ["a", "b"]).1 = ["X"]
      ∧ (["a", "b"].zip ["X"]).length = min 2 1
      ∧ (translate_section (fun _ => ["X"]) (⟨[], "en", "fr"⟩ : Cache)
          ["a", "b"]).2.1.get "b" = none := by
  have h := mismatched_translation_zip_truncates (fun _ => ["X"])
    (⟨[], "en", "fr"⟩ : Cache) ["a", "b"] (by decide)
  refine ⟨by rw [h.1], by decide, ?_⟩
  rw [h.2.2 "b" (by decide)]
  decide

/-- C3 (amended): every retryable condition — run-level
(`Failed(ServerError)`, `Failed` with no reason, `Incomplete`) and
request-level (`Reqwest`, `JSONDeserialize` transport errors) — consumes one
unit from the `sequential_errors` counter of the enclosing operation, which
is bounded by `MAX_SEQUENTIAL_ERRORS = 5`; within `run_with_backoff` the
run-level and request-level conditions share one counter (both step it into
the same continuation), while each `run_openai_request` call keeps its own
independent counter; the counter is never reset — in particular a successful
call does not reset it, it can only grow — and once it reaches the maximum
the next retryable condition surfaces as a fatal error. -/
theorem sequential_error_budget_shared_never_reset
    (mode : RwbMode) (errs : Nat) (trace : List ApiResp)
    (rtrace : List ReqResp) (h : errs ≤ MAX_SEQUENTIAL_ERRORS) :
    (errs ≤ (run_with_backoff mode errs trace).seqErrors
        ∧ (run_with_backoff mode errs trace).seqErrors
          ≤ MAX_SEQUENTIAL_ERRORS)
      ∧ (errs ≤ (run_openai_request errs rtrace).seqErrors
        ∧ (run_openai_request errs rtrace).seqErrors
          ≤ MAX_SEQUENTIAL_ERRORS)
      ∧ (errs < MAX_SEQUENTIAL_ERRORS →
          run_with_backoff .pollRun errs (.reqwestErr :: trace)
              = run_with_backoff .createRun (errs + 1) trace
            ∧ run_with_backoff .pollRun errs (.ok .incomplete :: trace)
              = run_with_backoff .createRun (errs + 1) trace)
      ∧ run_with_backoff mode MAX_SEQUENTIAL_ERRORS (.reqwestErr :: trace)
          = .fatal .budget MAX_SEQUENTIAL_ERRORS := by
  refine ⟨run_with_backoff_counter_invariant trace mode errs h,
    run_openai_request_counter_invariant rtrace errs h,
    fun hlt => ⟨?_, ?_⟩, ?_⟩
  · show retry_or_bail errs (fun e => run_with_backoff .createRun e trace) = _
    unfold retry_or_bail
    rw [if_neg (by omega)]
  · show retry_or_bail errs (fun e => run_with_backoff .createRun e trace) = _
    unfold retry_or_bail
    rw [if_neg (by omega)]
  · cases mode <;>
      (show retry_or_bail MAX_SEQUENTIAL_ERRORS
          (fun e => run_with_backoff .createRun e trace) = _
       unfold retry_or_bail
       rw [if_pos (le_refl _)])

/-- C3 witness: instantiating the amended budget theorem on the concrete
mixed trace (run-level and request-level errors drawing on one counter)
with the counter starting at `0`. -/
theorem sequential_error_budget_shared_never_reset_witness :
    ((0 ≤ (run_with_backoff .createRun 0 mixed_error_trace).seqErrors
        ∧ (run_with_backoff .createRun 0 mixed_error_trace).seqErrors
          ≤ MAX_SEQUENTIAL_ERRORS)
      ∧ (0 ≤ (run_openai_request 0 [ReqResp.reqwestErr, ReqResp.ok]).seqErrors
        ∧ (run_openai_request 0 [ReqResp.reqwestErr, ReqResp.ok]).seqErrors
          ≤ MAX_SEQUENTIAL_ERRORS)
      ∧ (0 < MAX_SEQUENTIAL_ERRORS →
          run_with_backoff .pollRun 0 (.reqwestErr :: mixed_error_trace)
              = run_with_backoff .createRun (0 + 1) mixed_error_trace
            ∧ run_with_backoff .pollRun 0 (.ok .incomplete :: mixed_error_trace)
              = run_with_backoff .createRun (0 + 1) mixed_error_trace)
      ∧ run_with_backoff .createRun MAX_SEQUENTIAL_ERRORS
            (.reqwestErr :: mixed_error_trace)
          = .fatal .budget MAX_SEQUENTIAL_ERRORS)
      ∧ (run_with_backoff .createRun 0 mixed_error_trace).seqErrors = 5 :=
  ⟨sequential_error_budget_shared_never_reset .createRun 0 mixed_error_trace
      [ReqResp.reqwestErr, ReqResp.ok] (by decide),
   by decide⟩

/-- C3 counterexample: on a trace where six retryable transport errors are
each separated by a successful `create` call, the code's counter — which no
successful call ever resets — reaches the maximum and `run_with_backoff`
fails fatally with the budget error; under the claimed reset-on-success
semantics (`run_with_backoff_reset`) the same trace leaves the counter at 1
and no budget failure occurs. -/
theorem run_with_backoff_no_reset_on_success_counterexample :
    run_with_backoff .createRun 0 interleaved_error_trace
        = .fatal .budget MAX_SEQUENTIAL_ERRORS
      ∧ run_with_backoff_reset .createRun 0 interleaved_error_trace
        = .outOfTrace 1 := by
  exact ⟨by decide, by decide⟩

/-- C8: during run polling, a run that ends `Failed(InvalidPrompt)`, or that
reaches `Cancelled`, `Cancelling` or `Expired`, makes `run_with_backoff`
fail immediately with a fatal outcome: the result does not depend on the
rest of the trace (nothing further is consumed, so no retry happens) and
holds for every remaining value of the sequential-error budget. -/
theorem terminal_run_failures_never_retried (errs : Nat)
    (rest : List ApiResp) :
    run_with_backoff .pollRun errs (.ok (.failed (some .invalidPrompt)) :: rest)
        = .fatal .invalidPromptRun errs
      ∧ run_with_backoff .pollRun errs (.ok .cancelled :: rest)
        = .fatal .cancelledRun errs
      ∧ run_with_backoff .pollRun errs (.ok .cancelling :: rest)
        = .fatal .cancelledRun errs
      ∧ run_with_backoff .pollRun errs (.ok .expired :: rest)
        = .fatal .expiredRun errs :=
  ⟨rfl, rfl, rfl, rfl⟩

/-- C6: the translated text is extracted successfully exactly when the
listing returned one message carrying one content block of text type; every
other shape (zero or several messages, zero or several blocks, a non-text
block) produces an error, and that error is always the fatal
`InteractionError` — never a retryable kind. -/
theorem response_shape_one_text_message (msgs : List MessageObject)
    (t : String) :
    (extract_translated_message msgs = .ok t
        ↔ msgs = [⟨[MessageContent.text t]⟩])
      ∧ ∀ e, extract_translated_message msgs = .error e
        → e = LLMErrorKind.interaction := by
  constructor
  · constructor
    · intro h
      match msgs with
      | [] => simp [extract_translated_message] at h
      | m1 :: m2 :: ms => simp [extract_translated_message] at h
      | [⟨content⟩] =>
        match content with
        | [] => simp [extract_translated_message] at h
        | c1 :: c2 :: cs => simp [extract_translated_message] at h
        | [MessageContent.text v] =>
          simp [extract_translated_message] at h
          rw [h]
        | [MessageContent.imageFile] => simp [extract_translated_message] at h
        | [MessageContent.imageUrl] => simp [extract_translated_message] at h
        | [MessageContent.refusal] => simp [extract_translated_message] at h
    · intro h
      subst h
      rfl
  · intro e he
    match msgs with
    | [] => exact (by simpa [extract_translated_message] using he : LLMErrorKind.interaction = e).symm
    | m1 :: m2 :: ms => exact (by simpa [extract_translated_message] using he : LLMErrorKind.interaction = e).symm
    | [⟨content⟩] =>
      match content with
      | [] => exact (by simpa [extract_translated_message] using he : LLMErrorKind.interaction = e).symm
      | c1 :: c2 :: cs => exact (by simpa [extract_translated_message] using he : LLMErrorKind.interaction = e).symm
      | [MessageContent.text v] => simp [extract_translated_message] at he
      | [MessageContent.imageFile] => exact (by simpa [extract_translated_message] using he : LLMErrorKind.interaction = e).symm
      | [MessageContent.imageUrl] => exact (by simpa [extract_translated_message] using he : LLMErrorKind.interaction = e).symm
      | [MessageContent.refusal] => exact (by simpa [extract_translated_message] using he : LLMErrorKind.interaction = e).symm

/-- C6 witness: one message with one text block extracts that text; the
well-shaped response round-trips through the iff of the theorem. -/
theorem response_shape_one_text_message_witness :
    extract_translated_message [⟨[MessageContent.text "Salut."]⟩]
      = .ok "Salut." :=
  ((response_shape_one_text_message [⟨[MessageContent.text "Salut."]⟩]
    "Salut.").1).mpr rfl

/-- C2 (amended): every Subsection the segmenter returns either has length
at most `L`, or ends with a sentence-terminating punctuation mark — the
bound can be exceeded, because the cut is made one past the first sentence
break at or after `L / 2` of the remaining text and that break may lie at or
beyond `L`.  When a remaining text longer than `L` has no sentence break at
or after `L / 2`, the call fails with the segmentation error. -/
theorem segmentation_length_bound_or_boundary_overshoot
    (p : PandocParser) (markdown : List Char) (out : List (List (List Char)))
    (hL : 0 < p.max_section_len) (hok : p.parse markdown = .ok out) :
    (∀ sec ∈ out, ∀ ss ∈ sec,
        ss.length ≤ p.max_section_len
          ∨ ∃ c, ss.getLast? = some c ∧ isSentenceEnd c = true)
      ∧ ∀ s : List Char, p.max_section_len < s.length →
          find_at s (p.max_section_len / 2) = none →
          split_section p.max_section_len s
            = .error segmentation_error_msg := by
  constructor
  · intro sec hsec ss hss
    obtain ⟨para, hpara, hsplit⟩ :=
      parse_paragraphs_mem p.max_section_len _ out hok sec hsec
    exact split_section_go_length_bound p.max_section_len _ _ sec hsplit ss hss
  · intro s hlen hfind
    unfold split_section
    cases hs : s.length with
    | zero => exact absurd hlen (by omega)
    | succ n =>
      rw [split_section_go, if_neg (by omega), hfind]

/-- C2 witness: on the paragraph `"ab. Cdefg. H"` with `L = 4`, the parse
succeeds and every returned subsection fits the amended bound. -/
theorem segmentation_length_bound_or_boundary_overshoot_witness :
    (0 < 4)
      ∧ (PandocParser.mk 4).parse ("ab. Cdefg. H".data)
        = .ok [[("ab.".data), ("Cdefg.".data), ("H".data)]]
      ∧ ∀ sec ∈ [[("ab.".data), ("Cdefg.".data), ("H".data)]], ∀ ss ∈ sec,
          ss.length ≤ 4
            ∨ ∃ c, ss.getLast? = some c ∧ isSentenceEnd c = true :=
  ⟨by decide, by rfl,
    (segmentation_length_bound_or_boundary_overshoot (PandocParser.mk 4)
      ("ab. Cdefg. H".data) [[("ab.".data), ("Cdefg.".data), ("H".data)]]
      (by decide) (by rfl)).1⟩

/-- C2 counterexample: with `L = 4`, the paragraph `"ab. Cdefg. H"` parses
successfully — no segmentation error — yet the returned subsection
`"Cdefg."` has length `6 > 4`: the first sentence break at or after
`L / 2 = 2` of the remaining text `"Cdefg. H"` starts at position 5, past
the limit. -/
theorem segmentation_length_bound_counterexample :
    (PandocParser.mk 4).parse ("ab. Cdefg. H".data)
        = .ok [[("ab.".data), ("Cdefg.".data), ("H".data)]]
      ∧ 4 < ("Cdefg.".data).length :=
  ⟨by rfl, by decide⟩

/-- C7 (amended): for every input paragraph, joining the subsections the
segmenter returns for that paragraph's section with single spaces
reproduces the trimmed paragraph content up to collapsing the whitespace
run at each cut point to a single space (`WsCollapsedFrom`); the
reproduction is exact whenever each cut whitespace run is a single
space. -/
theorem section_reconstruction_up_to_ws_collapse (L : Nat)
    (para : List Char) (out : List (List Char))
    (hok : split_section L (trimChars para) = .ok out) :
    WsCollapsedFrom (trimChars para) (join_with_space out) :=
  split_section_go_reconstruction L (trimChars para).length (trimChars para)
    out (noEdgeWs_trimChars para) hok

/-- C7 witness: the paragraph `"Hi. Yo"` with `L = 4` splits into
`["Hi.", "Yo"]`, and their single-space join stands in the collapse
relation to the paragraph (here the cut run is one space, so the relation
instance is the identity reconstruction). -/
theorem section_reconstruction_up_to_ws_collapse_witness :
    WsCollapsedFrom (trimChars ("Hi. Yo".data))
      (join_with_space [("Hi.".data), ("Yo".data)]) :=
  section_reconstruction_up_to_ws_collapse 4 ("Hi. Yo".data)
    [("Hi.".data), ("Yo".data)] (by rfl)

/-- C7 counterexample: the paragraph `"ab.  Cdef"` (two spaces at the
sentence boundary) with `L = 4` is split into `["ab.", "Cdef"]`, whose
single-space join `"ab. Cdef"` does not reproduce the trimmed source
paragraph `"ab.  Cdef"`. -/
theorem section_reconstruction_counterexample :
    (PandocParser.mk 4).parse ("ab.  Cdef".data)
        = .ok [[("ab.".data), ("Cdef".data)]]
      ∧ join_with_space [("ab.".data), ("Cdef".data)]
        ≠ trimChars ("ab.  Cdef".data) :=
  ⟨by rfl, by decide⟩

/-- C1: in a resumed translation, a prior section at position `i` is reused
verbatim only if its subsection count equals the freshly parsed section's
(`true` positions return exactly the prior section and have matching
counts), and the first count mismatch invalidates resumption from that
position onward: once any position is translated afresh, every later
position is translated afresh too — even when a later prior section's count
alone would have matched. -/
theorem resume_invalidation_propagates
    (llm : List String → List String) (cache : Cache)
    (prior fresh : List (List String)) :
    (∀ i, ((resume_translate llm cache prior fresh).1.get? i).map Prod.fst
          = some true →
        ((resume_translate llm cache prior fresh).1.get? i).map Prod.snd
            = prior.get? i
          ∧ (prior.get? i).map List.length
            = (fresh.get? i).map List.length)
      ∧ ∀ i j, i ≤ j → j < fresh.length →
          ((resume_translate llm cache prior fresh).1.get? i).map Prod.fst
            = some false →
          ((resume_translate llm cache prior fresh).1.get? j).map Prod.fst
            = some false :=
  ⟨fun i h => resume_translate_true_spec llm fresh prior cache i h,
   fun i j hij hj h =>
     resume_translate_false_propagates llm fresh prior cache i j hij hj h⟩

/-- C1 witness (spec scenario 4): the prior output's section 1 has 3
subsections but fresh parsing yields 2, while sections 0 and 2 have matching
counts (1 and 1); position 0 is reused, position 1 is translated afresh,
and by the theorem position 2 is then translated afresh as well, even
though its own counts match. -/
theorem resume_invalidation_propagates_witness :
    ((resume_translate (fun s => s) (⟨[], "en", "fr"⟩ : Cache)
        [["P1"], ["P2a", "P2b", "P2c"], ["P3"]]
        [["F1"], ["F2a", "F2b"], ["F3"]]).1.get? 2).map Prod.fst
      = some false :=
  (resume_invalidation_propagates (fun s => s) (⟨[], "en", "fr"⟩ : Cache)
      [["P1"], ["P2a", "P2b", "P2c"], ["P3"]]
      [["F1"], ["F2a", "F2b"], ["F3"]]).2
    1 2 (by decide) (by decide) (by rfl)
